import Mathlib

/-!
Verification of `foldeddict.py`: a `FoldedDict` is a mutable mapping in which
keys with equal `canonicalkey()` results refer to the same entry.  The state
consists of two Python dicts, `__preserves` (canonical key -> preserved key)
and `__dict` (preserved key -> value).  Python dicts preserve insertion order,
so both tables are modelled as insertion-ordered association lists: update of
an existing key keeps its position, insertion of a fresh key appends.

Keys are modelled by `PyKey` (strings, integers, `None`, and integer tuples —
the key types exercised by the repository).  `str.lower()` is modelled by
`pyLower`, acting characterwise via `Char.toLower` (faithful on the basic
latin range used throughout the repository).  Exceptions (`KeyError`,
`AttributeError`, `TypeError`) are modelled by `PyErr`; operations that can
raise return `Except`-style results, and `__delitem__` returns the state
together with an optional error so that "no mutation on failure" is a
provable statement.
-/

/-- Model of the Python key domain used by the repository: strings, ints,
`None`, and (integer) tuples. -/
inductive PyKey where
  | str (s : String)
  | int (n : Int)
  | none
  | tup (l : List Int)
deriving DecidableEq, Repr

/-- The Python exception kinds relevant to `foldeddict.py`. -/
inductive PyErr where
  | keyError
  | attributeError
  | typeError
deriving DecidableEq, Repr

/-- Model of Python `str.lower()`, characterwise via `Char.toLower`
(lower-cases the basic latin letters `A`–`Z`). -/
def pyLower (s : String) : String :=
  String.mk (s.data.map Char.toLower)

/-- Model of Python `''.join(s.split())`: remove all whitespace from `s`
(`str.split()` splits on whitespace runs and drops empty pieces; joining with
the empty separator concatenates the pieces). -/
def pyStripJoin (s : String) : String :=
  String.join (s.split Char.isWhitespace)

/-- Lookup in a Python dict modelled as an association list:
`d[a]`, returning `none` for a `KeyError`. -/
def lookupA {α β : Type} [DecidableEq α] : List (α × β) → α → Option β
  | [], _ => Option.none
  | (k, v) :: rest, a => if k = a then some v else lookupA rest a

/-- Assignment `d[a] = b` in a Python dict: update in place if the key is
present (keeping its position), otherwise append. -/
def setA {α β : Type} [DecidableEq α] : List (α × β) → α → β → List (α × β)
  | [], a, b => [(a, b)]
  | (k, v) :: rest, a, b => if k = a then (k, b) :: rest else (k, v) :: setA rest a b

/-- Deletion `del d[a]` in a Python dict: remove the entry with key `a`
(a no-op if absent; the source only deletes keys it has already looked up). -/
def delA {α β : Type} [DecidableEq α] : List (α × β) → α → List (α × β)
  | [], _ => []
  | (k, v) :: rest, a => if k = a then rest else (k, v) :: delA rest a

/-- The state of a `FoldedDict`: the two parallel tables
`self.__preserves` (canonical key -> preserved key) and
`self.__dict` (preserved key -> value). -/
structure FD (V : Type) where
  preserves : List (PyKey × PyKey)
  dict : List (PyKey × V)
deriving DecidableEq

/-- The state built by `FoldedDict()` with no arguments. -/
def FD.empty {V : Type} : FD V := ⟨[], []⟩

namespace FoldedDict

/-- Model of `FoldedDict.canonicalkey`: `key.lower()` for strings; the
`AttributeError` fallback returns non-string keys unchanged. -/
def canonicalkey : PyKey → PyKey
  | .str s => .str (pyLower s)
  | k => k

end FoldedDict

/-- Model of `FoldedDict._savekey`, parameterised by the `canonicalkey` method:
return the preserved key for `canonicalkey key` if it exists, otherwise
record `key` as the preserved key (and return it). -/
def savekeyWith {V : Type} (canon : PyKey → PyKey) (st : FD V) (key : PyKey) :
    PyKey × FD V :=
  match lookupA st.preserves (canon key) with
  | some p => (p, st)
  | Option.none => (key, { st with preserves := setA st.preserves (canon key) key })

/-- Model of `FoldedDict.__setitem__`, parameterised by the `_savekey` method:
`self.__dict[self._savekey(key)] = val`. -/
def setWith {V : Type} (sk : FD V → PyKey → PyKey × FD V) (st : FD V)
    (key : PyKey) (v : V) : FD V :=
  let pst := sk st key
  { pst.2 with dict := setA pst.2.dict pst.1 v }

/-- Model of `FoldedDict.__getitem__`, parameterised by the `canonicalkey` method:
`self.__dict[self.__preserves[self.canonicalkey(key)]]`; either dict lookup
can raise `KeyError`. -/
def getWith {V : Type} (canon : PyKey → PyKey) (st : FD V) (key : PyKey) :
    Except PyErr V :=
  match lookupA st.preserves (canon key) with
  | Option.none => .error .keyError
  | some p =>
    match lookupA st.dict p with
    | Option.none => .error .keyError
    | some v => .ok v

/-- Model of `FoldedDict.__delitem__`, parameterised by the `canonicalkey` method:
look up the preserved key first (`KeyError` if absent, before any mutation),
then delete from both tables.  Returns the resulting state together with the
raised error, if any. -/
def delWith {V : Type} (canon : PyKey → PyKey) (st : FD V) (key : PyKey) :
    FD V × Option PyErr :=
  match lookupA st.preserves (canon key) with
  | Option.none => (st, some .keyError)
  | some p => (⟨delA st.preserves (canon key), delA st.dict p⟩, Option.none)

/-- Model of `MutableMapping.__contains__`, parameterised by the `canonicalkey`
method: `key in self` tries `self[key]` and catches `KeyError`. -/
def containsWith {V : Type} (canon : PyKey → PyKey) (st : FD V) (key : PyKey) :
    Bool :=
  match getWith canon st key with
  | .ok _ => true
  | .error _ => false

/-- Model of `DKFoldedDict._savekey`, parameterised by the `canonicalkey` method:
`if key in self: del self[key]`, then defer to the base `_savekey` (so the
set will preserve THIS key). -/
def dkSavekeyWith {V : Type} (canon : PyKey → PyKey) (st : FD V) (key : PyKey) :
    PyKey × FD V :=
  let st1 := if containsWith canon st key then (delWith canon st key).1 else st
  savekeyWith canon st1 key

namespace FoldedDict

/-- Model of `FoldedDict._savekey`. -/
def _savekey {V : Type} : FD V → PyKey → PyKey × FD V :=
  savekeyWith canonicalkey

/-- Model of `FoldedDict.__setitem__`. -/
def set {V : Type} : FD V → PyKey → V → FD V :=
  setWith _savekey

/-- Model of `FoldedDict.__getitem__`. -/
def get {V : Type} : FD V → PyKey → Except PyErr V :=
  getWith canonicalkey

/-- Model of `FoldedDict.__delitem__`. -/
def del {V : Type} : FD V → PyKey → FD V × Option PyErr :=
  delWith canonicalkey

/-- Model of `FoldedDict.__init__` from an ordered list of key/value pairs:
`for k, v in dict(*args, **kwargs).items(): self[k] = v`. -/
def ofList {V : Type} (l : List (PyKey × V)) : FD V :=
  l.foldl (fun st kv => set st kv.1 kv.2) FD.empty

end FoldedDict

namespace FD

/-- Model of `keys()` / `__iter__`: iterate the keys of `self.__dict`
(the preserved keys) in insertion order. -/
def keys {V : Type} (st : FD V) : List PyKey :=
  st.dict.map Prod.fst

/-- Model of `items()`: the (preserved key, value) pairs of `self.__dict`
in insertion order. -/
def items {V : Type} (st : FD V) : List (PyKey × V) :=
  st.dict

/-- Model of `__len__`: `self.__dict.__len__()`. -/
def len {V : Type} (st : FD V) : Nat :=
  st.dict.length

end FD

namespace CanonFolder

/-- Model of `CanonFolder._savekey`: `super()._savekey(self.canonicalkey(key))`. -/
def _savekey {V : Type} (st : FD V) (key : PyKey) : PyKey × FD V :=
  savekeyWith FoldedDict.canonicalkey st (FoldedDict.canonicalkey key)

/-- Model of `CanonFolder.__setitem__` (inherited, with the overridden `_savekey`). -/
def set {V : Type} : FD V → PyKey → V → FD V :=
  setWith _savekey

/-- Model of `CanonFolder.__init__` from an ordered list of key/value pairs. -/
def ofList {V : Type} (l : List (PyKey × V)) : FD V :=
  l.foldl (fun st kv => set st kv.1 kv.2) FD.empty

end CanonFolder

namespace DKFoldedDict

/-- Model of `DKFoldedDict._savekey`. -/
def _savekey {V : Type} : FD V → PyKey → PyKey × FD V :=
  dkSavekeyWith FoldedDict.canonicalkey

/-- Model of `DKFoldedDict.__setitem__` (inherited, with the overridden `_savekey`). -/
def set {V : Type} : FD V → PyKey → V → FD V :=
  setWith _savekey

/-- Model of `DKFoldedDict.__getitem__` (inherited). -/
def get {V : Type} : FD V → PyKey → Except PyErr V :=
  getWith FoldedDict.canonicalkey

end DKFoldedDict

namespace StrippedWhitespaceDict

/-- Model of `StrippedWhitespaceDict.canonicalkey`:
`''.join(key.split())` guarded by `except TypeError: return key`.
A string key strips to its whitespace-free form.  A non-string key has no
`split` attribute, so `key.split()` raises `AttributeError` — which the
`except TypeError` clause does NOT catch, so the error propagates. -/
def canonicalkey : PyKey → Except PyErr PyKey
  | .str s => .ok (.str (pyStripJoin s))
  | _ => .error .attributeError

end StrippedWhitespaceDict

/-- Python dict equality `d1 == d2` on association lists with distinct keys:
every entry of each is an entry of the other (order-independent). -/
def dictBeq {V : Type} [DecidableEq V] (d1 d2 : List (PyKey × V)) : Bool :=
  d1.all (fun kv => lookupA d2 kv.1 == some kv.2) &&
  d2.all (fun kv => lookupA d1 kv.1 == some kv.2)

/-- The dict comprehension `{canonicalkey(k): v for k, v in items()}`
(later duplicates overwrite earlier ones). -/
def canonItems {V : Type} (canon : PyKey → PyKey) (st : FD V) :
    List (PyKey × V) :=
  st.dict.foldl (fun acc kv => setA acc (canon kv.1) kv.2) []

/-- Model of `FoldedDict.__eq__` when `other` is folding-aware (has `canonicalkey` and
`items`): compare the canonicalised dict comprehensions of both sides, each
side canonicalised by its own `canonicalkey` method. -/
def eqFold {V : Type} [DecidableEq V] (cs co : PyKey → PyKey) (s o : FD V) :
    Bool :=
  dictBeq (canonItems cs s) (canonItems co o)

/-- Model of `FoldedDict.__eq__` fallback when `other` is a plain mapping
(`AttributeError` branch): `self.__dict == other`. -/
def eqPlain {V : Type} [DecidableEq V] (s : FD V) (other : List (PyKey × V)) :
    Bool :=
  dictBeq s.dict other

/-- The states reachable from `FoldedDict()` by `__setitem__` and
`__delitem__`, for a class with canonical-key method `canon` and save-key
method `sk` (`__delitem__` is not overridden by any subclass). -/
inductive Reach {V : Type} (canon : PyKey → PyKey)
    (sk : FD V → PyKey → PyKey × FD V) : FD V → Prop where
  | empty : Reach canon sk FD.empty
  | set {st : FD V} {k : PyKey} {v : V} :
      Reach canon sk st → Reach canon sk (setWith sk st k v)
  | del {st : FD V} {k : PyKey} :
      Reach canon sk st → Reach canon sk ((delWith canon st k).1)

/-- The table-consistency invariant of a `FoldedDict` state: the preserved
keys (values of `__preserves`) coincide positionally with the keys of
`__dict`; the canonical keys are pairwise distinct; and every `__preserves`
entry `(c, p)` satisfies `canon p = c`. -/
def FDInv {V : Type} (canon : PyKey → PyKey) (st : FD V) : Prop :=
  st.preserves.map Prod.snd = st.dict.map Prod.fst ∧
  (st.preserves.map Prod.fst).Nodup ∧
  ∀ c p, (c, p) ∈ st.preserves → canon p = c

/-! ### Association-list lemmas -/

theorem lookupA_eq_none_iff {α β : Type} [DecidableEq α] {l : List (α × β)} {a : α} :
    lookupA l a = Option.none ↔ a ∉ l.map Prod.fst := by
  induction l with
  | nil => simp [lookupA]
  | cons kv rest ih =>
      obtain ⟨k, v⟩ := kv
      by_cases h : k = a
      · subst h; simp [lookupA]
      · have ha : a ≠ k := fun he => h he.symm
        simp [lookupA, h, ih, ha]

theorem lookupA_some_mem {α β : Type} [DecidableEq α] {l : List (α × β)} {a : α} {b : β}
    (h : lookupA l a = some b) : (a, b) ∈ l := by
  induction l with
  | nil => simp [lookupA] at h
  | cons kv rest ih =>
      obtain ⟨k, v⟩ := kv
      by_cases hk : k = a
      · subst hk
        simp [lookupA] at h
        subst h
        exact List.mem_cons_self _ _
      · simp [lookupA, hk] at h
        exact List.mem_cons_of_mem _ (ih h)

theorem exists_lookupA_of_mem_fst {α β : Type} [DecidableEq α] {l : List (α × β)} {a : α}
    (h : a ∈ l.map Prod.fst) : ∃ b, lookupA l a = some b := by
  induction l with
  | nil => simp at h
  | cons kv rest ih =>
      obtain ⟨k, v⟩ := kv
      by_cases hk : k = a
      · subst hk; exact ⟨v, by simp [lookupA]⟩
      · have h' : a ∈ k :: rest.map Prod.fst := by simpa using h
        rcases List.mem_cons.1 h' with he | he
        · exact (hk he.symm).elim
        · obtain ⟨b, hb⟩ := ih he
          exact ⟨b, by simp [lookupA, hk, hb]⟩

theorem lookupA_of_mem_nodup {α β : Type} [DecidableEq α] {l : List (α × β)} {a : α} {b : β}
    (hn : (l.map Prod.fst).Nodup) (h : (a, b) ∈ l) : lookupA l a = some b := by
  induction l with
  | nil => simp at h
  | cons kv rest ih =>
      obtain ⟨k, v⟩ := kv
      have hn' : k ∉ rest.map Prod.fst ∧ (rest.map Prod.fst).Nodup := by
        rw [List.map_cons] at hn
        exact List.nodup_cons.1 hn
      rcases List.mem_cons.1 h with he | he
      · have h1 : a = k := congrArg Prod.fst he
        have h2 : b = v := congrArg Prod.snd he
        subst h1; subst h2
        simp [lookupA]
      · by_cases hk : k = a
        · subst hk
          exact (hn'.1 (List.mem_map_of_mem Prod.fst he)).elim
        · simp only [lookupA, if_neg hk]
          exact ih hn'.2 he

theorem lookupA_setA_self {α β : Type} [DecidableEq α] {l : List (α × β)} {a : α} {b : β} :
    lookupA (setA l a b) a = some b := by
  induction l with
  | nil => simp [setA, lookupA]
  | cons kv rest ih =>
      obtain ⟨k, v⟩ := kv
      by_cases hk : k = a <;> simp [setA, lookupA, hk, ih]

theorem lookupA_setA_ne {α β : Type} [DecidableEq α] {l : List (α × β)} {a a' : α} {b : β}
    (h : a' ≠ a) : lookupA (setA l a b) a' = lookupA l a' := by
  have hne : ¬ a = a' := fun he => h he.symm
  induction l with
  | nil => simp [setA, lookupA, hne]
  | cons kv rest ih =>
      obtain ⟨k, v⟩ := kv
      by_cases hk : k = a
      · subst hk; simp [setA, lookupA, hne]
      · simp [setA, lookupA, hk, ih]

theorem map_fst_setA_of_mem {α β : Type} [DecidableEq α] {l : List (α × β)} {a : α} {b : β}
    (h : a ∈ l.map Prod.fst) : (setA l a b).map Prod.fst = l.map Prod.fst := by
  induction l with
  | nil => simp at h
  | cons kv rest ih =>
      obtain ⟨k, v⟩ := kv
      by_cases hk : k = a
      · simp [setA, hk]
      · have h' : a ∈ k :: rest.map Prod.fst := by simpa using h
        rcases List.mem_cons.1 h' with he | he
        · exact (hk he.symm).elim
        · simp [setA, hk, ih he]

theorem setA_of_not_mem {α β : Type} [DecidableEq α] {l : List (α × β)} {a : α} {b : β}
    (h : a ∉ l.map Prod.fst) : setA l a b = l ++ [(a, b)] := by
  induction l with
  | nil => simp [setA]
  | cons kv rest ih =>
      obtain ⟨k, v⟩ := kv
      simp only [List.map_cons, List.mem_cons, not_or] at h
      have hk : k ≠ a := fun he => h.1 he.symm
      simp [setA, hk, ih h.2]

theorem delA_sublist {α β : Type} [DecidableEq α] {l : List (α × β)} {a : α} :
    List.Sublist (delA l a) l := by
  induction l with
  | nil => simp [delA]
  | cons kv rest ih =>
      obtain ⟨k, v⟩ := kv
      by_cases hk : k = a
      · simp only [delA, if_pos hk]
        exact List.sublist_cons_self _ _
      · simp only [delA, if_neg hk]
        exact ih.cons₂ _

theorem map_fst_delA {α β : Type} [DecidableEq α] {l : List (α × β)} {a : α} :
    (delA l a).map Prod.fst = (l.map Prod.fst).erase a := by
  induction l with
  | nil => simp [delA]
  | cons kv rest ih =>
      obtain ⟨k, v⟩ := kv
      by_cases hk : k = a
      · subst hk; simp [delA]
      · simp [delA, hk, ih, List.erase_cons]

theorem map_snd_delA_of_lookup {α β : Type} [DecidableEq α] [DecidableEq β]
    {l : List (α × β)} {a : α} {b : β}
    (hnd : (l.map Prod.snd).Nodup) (h : lookupA l a = some b) :
    (delA l a).map Prod.snd = (l.map Prod.snd).erase b := by
  induction l with
  | nil => simp [lookupA] at h
  | cons kv rest ih =>
      obtain ⟨k, v⟩ := kv
      have hnd' : v ∉ rest.map Prod.snd ∧ (rest.map Prod.snd).Nodup := by
        rw [List.map_cons] at hnd
        exact List.nodup_cons.1 hnd
      by_cases hk : k = a
      · subst hk
        simp [lookupA] at h
        subst h
        simp [delA]
      · simp only [lookupA, if_neg hk] at h
        have hb : b ∈ rest.map Prod.snd :=
          List.mem_map_of_mem Prod.snd (lookupA_some_mem h)
        have hv : v ≠ b := fun he => hnd'.1 (he ▸ hb)
        simp [delA, hk, ih hnd'.2 h, List.erase_cons, hv]

/-! ### Lower-casing lemmas -/

theorem char_toNat_ofNat_valid {n : Nat} (h : n.isValidChar) :
    (Char.ofNat n).toNat = n := by
  unfold Char.ofNat
  rw [dif_pos h]
  rfl

theorem charToLower_idem (c : Char) :
    Char.toLower (Char.toLower c) = Char.toLower c := by
  unfold Char.toLower
  by_cases h : c.toNat ≥ 65 ∧ c.toNat ≤ 90
  · rw [if_pos h]
    have hv : (c.toNat + 32).isValidChar := Or.inl (by omega)
    rw [char_toNat_ofNat_valid hv]
    rw [if_neg (by omega)]
  · rw [if_neg h, if_neg h]

theorem pyLower_idem (s : String) : pyLower (pyLower s) = pyLower s := by
  simp [pyLower, List.map_map, Function.comp_def, charToLower_idem]

theorem canonicalkey_idem (k : PyKey) :
    FoldedDict.canonicalkey (FoldedDict.canonicalkey k) = FoldedDict.canonicalkey k := by
  cases k with
  | str s => simp [FoldedDict.canonicalkey, pyLower_idem]
  | int n => rfl
  | none => rfl
  | tup l => rfl

/-! ### Invariant lemmas -/

theorem fdinv_empty {V : Type} (canon : PyKey → PyKey) :
    FDInv canon (FD.empty (V := V)) := by
  refine ⟨rfl, List.nodup_nil, ?_⟩
  intro c p h
  simp [FD.empty] at h

theorem nodup_snd_of_inv {V : Type} {canon : PyKey → PyKey} {st : FD V}
    (hinv : FDInv canon st) : (st.preserves.map Prod.snd).Nodup := by
  obtain ⟨-, hnodup, hcanon⟩ := hinv
  have hmap : st.preserves.map Prod.fst = (st.preserves.map Prod.snd).map canon := by
    rw [List.map_map]
    exact List.map_congr_left (fun e he => (hcanon e.1 e.2 he).symm)
  rw [hmap] at hnodup
  exact hnodup.of_map

theorem nodup_dict_of_inv {V : Type} {canon : PyKey → PyKey} {st : FD V}
    (hinv : FDInv canon st) : (st.dict.map Prod.fst).Nodup := by
  have := nodup_snd_of_inv hinv
  rwa [hinv.1] at this

theorem key_not_mem_dict_of_inv {V : Type} {canon : PyKey → PyKey} {st : FD V} {k : PyKey}
    (hinv : FDInv canon st)
    (h : lookupA st.preserves (canon k) = Option.none) :
    k ∉ st.dict.map Prod.fst := by
  obtain ⟨halign, -, hcanon⟩ := hinv
  rw [← halign]
  intro hmem
  obtain ⟨⟨c', k'⟩, hmem', hk'⟩ := List.mem_map.1 hmem
  simp only at hk'
  subst hk'
  have hc' : canon k' = c' := hcanon c' k' hmem'
  have : c' ∈ st.preserves.map Prod.fst := List.mem_map_of_mem Prod.fst hmem'
  rw [← hc'] at this
  exact (lookupA_eq_none_iff.1 h) this

theorem fdinv_set_base {V : Type} {canon : PyKey → PyKey} {st : FD V} {k : PyKey} {v : V}
    (hinv : FDInv canon st) : FDInv canon (setWith (savekeyWith canon) st k v) := by
  obtain ⟨halign, hnodup, hcanon⟩ := hinv
  unfold setWith savekeyWith
  cases hl : lookupA st.preserves (canon k) with
  | some p =>
      simp only [hl]
      refine ⟨?_, hnodup, hcanon⟩
      have hp : p ∈ st.dict.map Prod.fst := by
        rw [← halign]
        exact List.mem_map_of_mem Prod.snd (lookupA_some_mem hl)
      rw [map_fst_setA_of_mem hp]
      exact halign
  | none =>
      simp only [hl]
      have hc : canon k ∉ st.preserves.map Prod.fst := lookupA_eq_none_iff.1 hl
      have hk : k ∉ st.dict.map Prod.fst :=
        key_not_mem_dict_of_inv ⟨halign, hnodup, hcanon⟩ hl
      rw [setA_of_not_mem hc, setA_of_not_mem hk]
      refine ⟨?_, ?_, ?_⟩
      · simp [halign]
      · simp only [List.map_append, List.map_cons, List.map_nil]
        refine List.Nodup.append hnodup (List.nodup_singleton _) ?_
        intro x hx hx'
        simp at hx'
        subst hx'
        exact hc hx
      · intro c' p' hmem
        rcases List.mem_append.1 hmem with h | h
        · exact hcanon c' p' h
        · simp at h
          obtain ⟨h1, h2⟩ := h
          subst h1; subst h2
          rfl

theorem fdinv_del {V : Type} {canon : PyKey → PyKey} {st : FD V} {k : PyKey}
    (hinv : FDInv canon st) : FDInv canon ((delWith canon st k).1) := by
  have hsnd := nodup_snd_of_inv hinv
  obtain ⟨halign, hnodup, hcanon⟩ := hinv
  unfold delWith
  cases hl : lookupA st.preserves (canon k) with
  | none => exact ⟨halign, hnodup, hcanon⟩
  | some p =>
      simp only [hl]
      refine ⟨?_, ?_, ?_⟩
      · rw [map_snd_delA_of_lookup hsnd hl, map_fst_delA, halign]
      · rw [map_fst_delA]
        exact hnodup.erase _
      · intro c' p' hmem
        exact hcanon c' p' (delA_sublist.subset hmem)

theorem canonset_eq {V : Type} (canon : PyKey → PyKey) (st : FD V) (k : PyKey) (v : V) :
    setWith (fun st k => savekeyWith canon st (canon k)) st k v =
      setWith (savekeyWith canon) st (canon k) v := rfl

theorem dkset_eq {V : Type} (canon : PyKey → PyKey) (st : FD V) (k : PyKey) (v : V) :
    setWith (dkSavekeyWith canon) st k v =
      setWith (savekeyWith canon)
        (if containsWith canon st k then (delWith canon st k).1 else st) k v := rfl

theorem fdinv_set_dk {V : Type} {canon : PyKey → PyKey} {st : FD V} {k : PyKey} {v : V}
    (hinv : FDInv canon st) : FDInv canon (setWith (dkSavekeyWith canon) st k v) := by
  rw [dkset_eq]
  by_cases h : containsWith canon st k
  · rw [if_pos h]
    exact fdinv_set_base (fdinv_del hinv)
  · rw [if_neg h]
    exact fdinv_set_base hinv

theorem fdinv_reach {V : Type} (canon : PyKey → PyKey)
    (sk : FD V → PyKey → PyKey × FD V)
    (hsk : sk = savekeyWith canon ∨
           sk = (fun st k => savekeyWith canon st (canon k)) ∨
           sk = dkSavekeyWith canon)
    {st : FD V} (h : Reach canon sk st) : FDInv canon st := by
  induction h with
  | empty => exact fdinv_empty canon
  | set hr ih =>
      rcases hsk with h1 | h1 | h1 <;> subst h1
      · exact fdinv_set_base ih
      · rw [canonset_eq]
        exact fdinv_set_base ih
      · exact fdinv_set_dk ih
  | del hr ih => exact fdinv_del ih

/-! ### Claim theorems -/

/-- Claim C1: starting from an empty `FoldedDict` with the default
lower-casing normalization, for all string keys `k1, k2` with
`k1.lower() == k2.lower()` and all values `v1, v2`, after
`set(k1, v1); set(k2, v2)`, `get(k)` returns `v2` for every key `k` with
`k.lower() == k1.lower()`, and `length()` is `1`. -/
theorem C1_fold_equivalence {V : Type} (k1 k2 : String)
    (h : pyLower k1 = pyLower k2) (v1 v2 : V) :
    (∀ k : String, pyLower k = pyLower k1 →
      FoldedDict.get
        (FoldedDict.set (FoldedDict.set FD.empty (.str k1) v1) (.str k2) v2)
        (.str k) = .ok v2) ∧
    FD.len (FoldedDict.set (FoldedDict.set FD.empty (.str k1) v1) (.str k2) v2) = 1 := by
  constructor
  · intro k hk
    simp [FoldedDict.set, FoldedDict.get, FoldedDict._savekey, setWith, savekeyWith,
      getWith, FoldedDict.canonicalkey, FD.empty, lookupA, setA, h, hk]
  · simp [FoldedDict.set, FoldedDict._savekey, setWith, savekeyWith,
      FoldedDict.canonicalkey, FD.empty, lookupA, setA, FD.len, h]

/-- Witness for C1 at `k1 = "Clown"`, `k2 = "clown"`, `k = "CLOWN"`. -/
theorem C1_fold_equivalence_witness :
    pyLower "Clown" = pyLower "clown" ∧ pyLower "CLOWN" = pyLower "Clown" ∧
    FoldedDict.get
      (FoldedDict.set (FoldedDict.set FD.empty (.str "Clown") "Bozo") (.str "clown") "Krusty")
      (.str "CLOWN") = .ok "Krusty" ∧
    FD.len (FoldedDict.set (FoldedDict.set FD.empty (.str "Clown") "Bozo")
      (.str "clown") "Krusty") = 1 :=
  ⟨by decide, by decide,
   (C1_fold_equivalence "Clown" "clown" (by decide) "Bozo" "Krusty").1 "CLOWN" (by decide),
   (C1_fold_equivalence "Clown" "clown" (by decide) "Bozo" "Krusty").2⟩

/-- Claim C2: first-seen retention — under the default policy a `set` whose
normalized key already has a preserved key leaves `__preserves` unchanged,
and a `set` whose normalized key is new records the incoming key itself as
the preserved key; in particular after `set('Clown','Bozo'); set('clown','Krusty')`
on an empty map, `list(keys()) == ['Clown']` and `get('CLOWN') == 'Krusty'`. -/
theorem C2_first_seen {V : Type} (st : FD V) (k : PyKey) (v : V) :
    (∀ p, lookupA st.preserves (FoldedDict.canonicalkey k) = some p →
        (FoldedDict.set st k v).preserves = st.preserves) ∧
    (lookupA st.preserves (FoldedDict.canonicalkey k) = Option.none →
        lookupA (FoldedDict.set st k v).preserves (FoldedDict.canonicalkey k) = some k) ∧
    FD.keys (FoldedDict.set (FoldedDict.set FD.empty (.str "Clown") "Bozo")
        (.str "clown") "Krusty") = [PyKey.str "Clown"] ∧
    FoldedDict.get (FoldedDict.set (FoldedDict.set FD.empty (.str "Clown") "Bozo")
        (.str "clown") "Krusty") (.str "CLOWN") = .ok "Krusty" := by
  refine ⟨?_, ?_, by decide, by rfl⟩
  · intro p hp
    simp [FoldedDict.set, FoldedDict._savekey, setWith, savekeyWith, hp]
  · intro hp
    simp [FoldedDict.set, FoldedDict._savekey, setWith, savekeyWith, hp, lookupA_setA_self]

/-- Witness for C2: after `set('Clown','Bozo')`, a second set under an
equivalent key keeps the preserved key, and a set under a fresh class
records the incoming key. -/
theorem C2_first_seen_witness :
    lookupA (FoldedDict.set (FD.empty (V := String)) (.str "Clown") "Bozo").preserves
      (FoldedDict.canonicalkey (.str "clown")) = some (.str "Clown") ∧
    (FoldedDict.set (FoldedDict.set (FD.empty (V := String)) (.str "Clown") "Bozo")
      (.str "clown") "Krusty").preserves =
      (FoldedDict.set (FD.empty (V := String)) (.str "Clown") "Bozo").preserves ∧
    lookupA (FD.empty (V := String)).preserves
      (FoldedDict.canonicalkey (.str "banana")) = Option.none ∧
    lookupA (FoldedDict.set (FD.empty (V := String)) (.str "banana") "gram").preserves
      (FoldedDict.canonicalkey (.str "banana")) = some (.str "banana") :=
  ⟨by decide,
   (C2_first_seen (FoldedDict.set (FD.empty (V := String)) (.str "Clown") "Bozo")
     (.str "clown") "Krusty").1 (.str "Clown") (by decide),
   by decide,
   (C2_first_seen (FD.empty (V := String)) (.str "banana") "gram").2.1 (by decide)⟩

/-- Claim C3: failed lookups are no-ops — for every state and every key whose
normalized form has no `__preserves` entry, `get` and `del` raise `KeyError`
and leave the state unchanged (`del` returns the state as given), and a
subsequent `set` for that equivalence class records its own incoming key as
the preserved key. -/
theorem C3_failed_lookups {V : Type} (st : FD V) (key : PyKey)
    (h : lookupA st.preserves (FoldedDict.canonicalkey key) = Option.none) :
    FoldedDict.get st key = .error .keyError ∧
    FoldedDict.del st key = (st, some PyErr.keyError) ∧
    ∀ (k' : PyKey) (v : V), FoldedDict.canonicalkey k' = FoldedDict.canonicalkey key →
      lookupA (FoldedDict.set st k' v).preserves (FoldedDict.canonicalkey k') = some k' := by
  refine ⟨?_, ?_, ?_⟩
  · simp [FoldedDict.get, getWith, h]
  · simp [FoldedDict.del, delWith, h]
  · intro k' v hk
    have h' : lookupA st.preserves (FoldedDict.canonicalkey k') = Option.none := by
      rw [hk]; exact h
    simp [FoldedDict.set, FoldedDict._savekey, setWith, savekeyWith, h', lookupA_setA_self]

/-- Witness for C3 (the spec's P5 scenario): a failed `delete('banana')` on an
empty map, followed by `set('baNANA', 42)`. -/
theorem C3_failed_lookups_witness :
    lookupA (FD.empty (V := Nat)).preserves
      (FoldedDict.canonicalkey (.str "banana")) = Option.none ∧
    FoldedDict.canonicalkey (PyKey.str "baNANA") = FoldedDict.canonicalkey (.str "banana") ∧
    FoldedDict.get (FD.empty (V := Nat)) (.str "banana") = .error .keyError ∧
    FoldedDict.del (FD.empty (V := Nat)) (.str "banana") = (FD.empty, some PyErr.keyError) ∧
    lookupA (FoldedDict.set (FD.empty (V := Nat)) (.str "baNANA") 42).preserves
      (FoldedDict.canonicalkey (.str "baNANA")) = some (.str "baNANA") :=
  ⟨by decide, by decide,
   (C3_failed_lookups (FD.empty (V := Nat)) (.str "banana") (by decide)).1,
   (C3_failed_lookups (FD.empty (V := Nat)) (.str "banana") (by decide)).2.1,
   (C3_failed_lookups (FD.empty (V := Nat)) (.str "banana") (by decide)).2.2
     (.str "baNANA") 42 (by decide)⟩

/-- Claim C4: the default `canonicalkey` is total — it lower-cases string
keys and passes non-string keys through unchanged.  However the claim's
second half fails on the code: `StrippedWhitespaceDict.canonicalkey` does
NOT fall back to the identity for key types it cannot handle — a non-string
key raises `AttributeError` (from `key.split()`), which the source's
`except TypeError` clause does not catch. -/
theorem C4_normalization_totality :
    (∀ s : String, FoldedDict.canonicalkey (.str s) = .str (pyLower s)) ∧
    (∀ n : Int, FoldedDict.canonicalkey (.int n) = .int n) ∧
    FoldedDict.canonicalkey PyKey.none = PyKey.none ∧
    (∀ l : List Int, FoldedDict.canonicalkey (.tup l) = .tup l) ∧
    (∀ s : String, StrippedWhitespaceDict.canonicalkey (.str s) = .ok (.str (pyStripJoin s))) ∧
    StrippedWhitespaceDict.canonicalkey (.int 1) = .error PyErr.attributeError :=
  ⟨fun _ => rfl, fun _ => rfl, rfl, fun _ => rfl, fun _ => rfl, rfl⟩

theorem foldl_setA_fresh {V : Type} (canon : PyKey → PyKey) :
    ∀ (l : List (PyKey × V)) (acc : List (PyKey × V)),
      (l.map fun kv => canon kv.1).Nodup →
      (∀ kv ∈ l, canon kv.1 ∉ acc.map Prod.fst) →
      l.foldl (fun acc kv => setA acc (canon kv.1) kv.2) acc =
        acc ++ l.map (fun kv => (canon kv.1, kv.2)) := by
  intro l
  induction l with
  | nil => intro acc _ _; simp
  | cons kv rest ih =>
      intro acc hnd hfresh
      obtain ⟨k, v⟩ := kv
      have hnd' : canon k ∉ (rest.map fun kv => canon kv.1) ∧
          (rest.map fun kv => canon kv.1).Nodup := by
        rw [List.map_cons] at hnd
        exact List.nodup_cons.1 hnd
      simp only [List.foldl_cons]
      rw [setA_of_not_mem (hfresh (k, v) (List.mem_cons_self _ _))]
      rw [ih (acc ++ [(canon k, v)]) hnd'.2 ?fresh]
      · simp
      case fresh =>
        intro kv' hkv'
        have h1 : canon kv'.1 ∉ acc.map Prod.fst :=
          hfresh kv' (List.mem_cons_of_mem _ hkv')
        have h2 : canon kv'.1 ≠ canon k := by
          intro he
          exact hnd'.1 (he ▸ List.mem_map_of_mem (fun kv => canon kv.1) hkv')
        simp only [List.map_append, List.mem_append, not_or]
        exact ⟨h1, by simp [h2]⟩

theorem canonItems_eq {V : Type} (canon : PyKey → PyKey) (st : FD V)
    (hnd : (st.dict.map fun kv => canon kv.1).Nodup) :
    canonItems canon st = st.dict.map (fun kv => (canon kv.1, kv.2)) := by
  have h := foldl_setA_fresh canon st.dict [] hnd (by intro kv _; simp)
  simpa [canonItems] using h

theorem dictBeq_iff_mem {V : Type} [DecidableEq V] {d1 d2 : List (PyKey × V)}
    (h1 : (d1.map Prod.fst).Nodup) (h2 : (d2.map Prod.fst).Nodup) :
    dictBeq d1 d2 = true ↔ ∀ kv : PyKey × V, kv ∈ d1 ↔ kv ∈ d2 := by
  unfold dictBeq
  rw [Bool.and_eq_true, List.all_eq_true, List.all_eq_true]
  constructor
  · rintro ⟨ha, hb⟩ kv
    constructor
    · intro hm
      have h : lookupA d2 kv.1 = some kv.2 := by simpa using ha kv hm
      exact lookupA_some_mem h
    · intro hm
      have h : lookupA d1 kv.1 = some kv.2 := by simpa using hb kv hm
      exact lookupA_some_mem h
  · intro hiff
    constructor
    · intro kv hm
      simp [lookupA_of_mem_nodup h2 ((hiff kv).1 hm)]
    · intro kv hm
      simp [lookupA_of_mem_nodup h1 ((hiff kv).2 hm)]

theorem dictBeq_iff_lookup {V : Type} [DecidableEq V] {d1 d2 : List (PyKey × V)}
    (h1 : (d1.map Prod.fst).Nodup) (h2 : (d2.map Prod.fst).Nodup) :
    dictBeq d1 d2 = true ↔ ∀ k, lookupA d1 k = lookupA d2 k := by
  rw [dictBeq_iff_mem h1 h2]
  constructor
  · intro hiff k
    cases hl : lookupA d1 k with
    | some v =>
        have hm : (k, v) ∈ d2 := (hiff (k, v)).1 (lookupA_some_mem hl)
        rw [lookupA_of_mem_nodup h2 hm]
    | none =>
        cases hl2 : lookupA d2 k with
        | none => rfl
        | some w =>
            have hm : (k, w) ∈ d1 := (hiff (k, w)).2 (lookupA_some_mem hl2)
            rw [lookupA_of_mem_nodup h1 hm] at hl
            exact absurd hl (by simp)
  · intro hlk kv
    constructor
    · intro hm
      have h := lookupA_of_mem_nodup h1 hm
      rw [hlk kv.1] at h
      exact lookupA_some_mem h
    · intro hm
      have h := lookupA_of_mem_nodup h2 hm
      rw [← hlk kv.1] at h
      exact lookupA_some_mem h

/-- Claim C5: two folding maps compare equal iff the sets of
(normalized key, value) pairs coincide, each side normalized by its own
`canonicalkey`; against a plain mapping, equality is direct structural
equality of `self.__dict` with that mapping (as Python dict equality). -/
theorem C5_equality {V : Type} [DecidableEq V] (cs co : PyKey → PyKey) (s o : FD V)
    (hs : (s.dict.map fun kv => cs kv.1).Nodup)
    (ho : (o.dict.map fun kv => co kv.1).Nodup) :
    (eqFold cs co s o = true ↔
      ∀ cv : PyKey × V, cv ∈ s.dict.map (fun kv => (cs kv.1, kv.2)) ↔
        cv ∈ o.dict.map (fun kv => (co kv.1, kv.2))) ∧
    ∀ (od : List (PyKey × V)), (s.dict.map Prod.fst).Nodup → (od.map Prod.fst).Nodup →
      (eqPlain s od = true ↔ ∀ k, lookupA s.dict k = lookupA od k) := by
  constructor
  · unfold eqFold
    rw [canonItems_eq cs s hs, canonItems_eq co o ho]
    apply dictBeq_iff_mem
    · rw [List.map_map]
      simpa [Function.comp_def] using hs
    · rw [List.map_map]
      simpa [Function.comp_def] using ho
  · intro od hnd1 hnd2
    exact dictBeq_iff_lookup hnd1 hnd2

/-- Witness for C5: the spec's P7 maps `{banana: gram, clown: Bozo}` and
`{Banana: gram, CLOWN: Bozo}`, and the plain-mapping fallback. -/
theorem C5_equality_witness :
    ((((FoldedDict.ofList [(PyKey.str "banana", "gram"), (PyKey.str "clown", "Bozo")]).dict.map
        fun kv => FoldedDict.canonicalkey kv.1).Nodup) ∧
     (((FoldedDict.ofList [(PyKey.str "Banana", "gram"), (PyKey.str "CLOWN", "Bozo")]).dict.map
        fun kv => FoldedDict.canonicalkey kv.1).Nodup)) ∧
    (eqFold FoldedDict.canonicalkey FoldedDict.canonicalkey
        (FoldedDict.ofList [(PyKey.str "banana", "gram"), (PyKey.str "clown", "Bozo")])
        (FoldedDict.ofList [(PyKey.str "Banana", "gram"), (PyKey.str "CLOWN", "Bozo")]) = true ↔
      ∀ cv : PyKey × String,
        cv ∈ (FoldedDict.ofList [(PyKey.str "banana", "gram"), (PyKey.str "clown", "Bozo")]).dict.map
            (fun kv => (FoldedDict.canonicalkey kv.1, kv.2)) ↔
        cv ∈ (FoldedDict.ofList [(PyKey.str "Banana", "gram"), (PyKey.str "CLOWN", "Bozo")]).dict.map
            (fun kv => (FoldedDict.canonicalkey kv.1, kv.2))) ∧
    (eqPlain (FoldedDict.ofList [(PyKey.str "banana", "gram"), (PyKey.str "clown", "Bozo")])
        [(PyKey.str "banana", "gram"), (PyKey.str "clown", "Bozo")] = true ↔
      ∀ k, lookupA (FoldedDict.ofList
          [(PyKey.str "banana", "gram"), (PyKey.str "clown", "Bozo")]).dict k =
        lookupA [(PyKey.str "banana", "gram"), (PyKey.str "clown", "Bozo")] k) :=
  ⟨⟨by decide, by decide⟩,
   (C5_equality FoldedDict.canonicalkey FoldedDict.canonicalkey
     (FoldedDict.ofList [(PyKey.str "banana", "gram"), (PyKey.str "clown", "Bozo")])
     (FoldedDict.ofList [(PyKey.str "Banana", "gram"), (PyKey.str "CLOWN", "Bozo")])
     (by decide) (by decide)).1,
   (C5_equality FoldedDict.canonicalkey FoldedDict.canonicalkey
     (FoldedDict.ofList [(PyKey.str "banana", "gram"), (PyKey.str "clown", "Bozo")])
     (FoldedDict.ofList [(PyKey.str "Banana", "gram"), (PyKey.str "CLOWN", "Bozo")])
     (by decide) (by decide)).2
     [(PyKey.str "banana", "gram"), (PyKey.str "clown", "Bozo")] (by decide) (by decide)⟩

theorem lookup_self_of_mem_dict {V : Type} {canon : PyKey → PyKey} {st : FD V}
    (hinv : FDInv canon st) {k : PyKey} (h : k ∈ st.dict.map Prod.fst) :
    lookupA st.preserves (canon k) = some k := by
  obtain ⟨halign, hnodup, hcanon⟩ := hinv
  rw [← halign] at h
  obtain ⟨⟨c', k'⟩, hmem, he⟩ := List.mem_map.1 h
  simp only at he
  subst he
  rw [hcanon c' k' hmem]
  exact lookupA_of_mem_nodup hnodup hmem

theorem dk_set_state {V : Type} {st : FD V} {k : PyKey} {v : V}
    (hinv : FDInv FoldedDict.canonicalkey st) :
    (lookupA st.preserves (FoldedDict.canonicalkey k) = Option.none →
      DKFoldedDict.set st k v =
        ⟨setA st.preserves (FoldedDict.canonicalkey k) k, setA st.dict k v⟩) ∧
    (∀ p, lookupA st.preserves (FoldedDict.canonicalkey k) = some p →
      DKFoldedDict.set st k v =
        ⟨setA (delA st.preserves (FoldedDict.canonicalkey k)) (FoldedDict.canonicalkey k) k,
         setA (delA st.dict p) k v⟩) := by
  constructor
  · intro hl
    have hcont : containsWith FoldedDict.canonicalkey st k = false := by
      simp [containsWith, getWith, hl]
    show setWith (dkSavekeyWith FoldedDict.canonicalkey) st k v = _
    rw [dkset_eq, hcont]
    simp [setWith, savekeyWith, hl]
  · intro p hl
    obtain ⟨w, hw⟩ : ∃ w, lookupA st.dict p = some w := by
      apply exists_lookupA_of_mem_fst
      rw [← hinv.1]
      exact List.mem_map_of_mem Prod.snd (lookupA_some_mem hl)
    have hcont : containsWith FoldedDict.canonicalkey st k = true := by
      simp [containsWith, getWith, hl, hw]
    have hnone : lookupA (delA st.preserves (FoldedDict.canonicalkey k))
        (FoldedDict.canonicalkey k) = Option.none := by
      rw [lookupA_eq_none_iff, map_fst_delA]
      exact hinv.2.1.not_mem_erase
    show setWith (dkSavekeyWith FoldedDict.canonicalkey) st k v = _
    rw [dkset_eq, hcont]
    simp only [if_true, delWith, hl]
    simp [setWith, savekeyWith, hnone]

/-- Claim C6: most-recent retention — under `DKFoldedDict`, every
`set(key, value)` makes the incoming key the preserved key of its
equivalence class (deleting the class's previous entry first); in particular
after `set('cloWN','boZO'); set('CLOwn','BOzo')` on an empty map,
`list(keys()) == ['CLOwn']` and `get('clown') == 'BOzo'`. -/
theorem C6_most_recent {V : Type} (st : FD V)
    (hinv : FDInv FoldedDict.canonicalkey st) (k : PyKey) (v : V) :
    (lookupA (DKFoldedDict.set st k v).preserves (FoldedDict.canonicalkey k) = some k ∧
     lookupA (DKFoldedDict.set st k v).dict k = some v ∧
     ∀ p, lookupA st.preserves (FoldedDict.canonicalkey k) = some p → p ≠ k →
       lookupA (DKFoldedDict.set st k v).dict p = Option.none) ∧
    FD.keys (DKFoldedDict.set (DKFoldedDict.set FD.empty (.str "cloWN") "boZO")
        (.str "CLOwn") "BOzo") = [PyKey.str "CLOwn"] ∧
    DKFoldedDict.get (DKFoldedDict.set (DKFoldedDict.set FD.empty (.str "cloWN") "boZO")
        (.str "CLOwn") "BOzo") (.str "clown") = .ok "BOzo" := by
  refine ⟨?_, by decide, by rfl⟩
  cases hl : lookupA st.preserves (FoldedDict.canonicalkey k) with
  | none =>
      rw [(dk_set_state hinv).1 hl]
      refine ⟨lookupA_setA_self, lookupA_setA_self, ?_⟩
      intro p hp
      exact absurd hp (by simp)
  | some p0 =>
      rw [(dk_set_state hinv).2 p0 hl]
      refine ⟨lookupA_setA_self, lookupA_setA_self, ?_⟩
      intro p hp hpk
      injection hp with hp
      subst hp
      rw [lookupA_setA_ne hpk, lookupA_eq_none_iff, map_fst_delA]
      exact (nodup_dict_of_inv hinv).not_mem_erase

/-- Witness for C6: a `DKFoldedDict.set` on a one-class map makes the
incoming key the preserved key and drops the old preserved key's entry. -/
theorem C6_most_recent_witness :
    lookupA (DKFoldedDict.set (DKFoldedDict.set (FD.empty (V := String))
        (.str "cloWN") "boZO") (.str "CLOwn") "BOzo").preserves
      (FoldedDict.canonicalkey (.str "CLOwn")) = some (.str "CLOwn") ∧
    lookupA (DKFoldedDict.set (DKFoldedDict.set (FD.empty (V := String))
        (.str "cloWN") "boZO") (.str "CLOwn") "BOzo").dict
      (.str "CLOwn") = some "BOzo" ∧
    lookupA (DKFoldedDict.set (DKFoldedDict.set (FD.empty (V := String))
        (.str "cloWN") "boZO") (.str "CLOwn") "BOzo").dict
      (.str "cloWN") = Option.none :=
  ⟨((C6_most_recent (DKFoldedDict.set (FD.empty (V := String)) (.str "cloWN") "boZO")
      (fdinv_set_dk (fdinv_empty FoldedDict.canonicalkey)) (.str "CLOwn") "BOzo").1).1,
   ((C6_most_recent (DKFoldedDict.set (FD.empty (V := String)) (.str "cloWN") "boZO")
      (fdinv_set_dk (fdinv_empty FoldedDict.canonicalkey)) (.str "CLOwn") "BOzo").1).2.1,
   ((C6_most_recent (DKFoldedDict.set (FD.empty (V := String)) (.str "cloWN") "boZO")
      (fdinv_set_dk (fdinv_empty FoldedDict.canonicalkey)) (.str "CLOwn") "BOzo").1).2.2
     (.str "cloWN") (by decide) (by decide)⟩

theorem canonfolder_preserved_canonical {V : Type} {st : FD V}
    (h : Reach FoldedDict.canonicalkey CanonFolder._savekey st) :
    ∀ c p, (c, p) ∈ st.preserves → p = c := by
  induction h with
  | empty =>
      intro c p hmem
      simp [FD.empty] at hmem
  | @set st' k v hr ih =>
      intro c p hmem
      simp only [setWith, CanonFolder._savekey, savekeyWith] at hmem
      cases hl : lookupA st'.preserves
          (FoldedDict.canonicalkey (FoldedDict.canonicalkey k)) with
      | some q =>
          rw [hl] at hmem
          simp at hmem
          exact ih c p hmem
      | none =>
          rw [hl] at hmem
          simp only at hmem
          rw [setA_of_not_mem (lookupA_eq_none_iff.1 hl)] at hmem
          rcases List.mem_append.1 hmem with hm | hm
          · exact ih c p hm
          · simp at hm
            obtain ⟨h1, h2⟩ := hm
            subst h1
            subst h2
            exact (canonicalkey_idem k).symm
  | @del st' k hr ih =>
      intro c p hmem
      unfold delWith at hmem
      cases hl : lookupA st'.preserves (FoldedDict.canonicalkey k) with
      | none =>
          rw [hl] at hmem
          exact ih c p hmem
      | some q =>
          rw [hl] at hmem
          simp only at hmem
          exact ih c p (delA_sublist.subset hmem)

/-- Claim C7: canonical retention — in every reachable `CanonFolder` state
the preserved key of every populated equivalence class is the canonical
(normalized) form itself; in particular after
`set('Clown','Bozo'); set('clown','Krusty')` on an empty map,
`list(keys()) == ['clown']`. -/
theorem C7_canonical_retention {V : Type} (st : FD V)
    (h : Reach FoldedDict.canonicalkey CanonFolder._savekey st) :
    (∀ c p, (c, p) ∈ st.preserves → p = c) ∧
    (∀ p, p ∈ FD.keys st → p = FoldedDict.canonicalkey p) ∧
    FD.keys (CanonFolder.set (CanonFolder.set (FD.empty (V := String))
        (.str "Clown") "Bozo") (.str "clown") "Krusty") = [PyKey.str "clown"] := by
  have hcanon := canonfolder_preserved_canonical h
  have hinv := fdinv_reach FoldedDict.canonicalkey CanonFolder._savekey
    (Or.inr (Or.inl rfl)) h
  refine ⟨hcanon, ?_, by decide⟩
  intro p hp
  have hmem : p ∈ st.preserves.map Prod.snd := by
    rw [hinv.1]
    exact hp
  obtain ⟨⟨c', p'⟩, hm, he⟩ := List.mem_map.1 hmem
  simp only at he
  subst he
  have h1 : p' = c' := hcanon c' p' hm
  have h2 : FoldedDict.canonicalkey p' = c' := hinv.2.2 c' p' hm
  rw [h2]
  exact h1

/-- Witness for C7: the two-set `CanonFolder` state from the spec's P3. -/
theorem C7_canonical_retention_witness :
    ((PyKey.str "clown", PyKey.str "clown") ∈
      (CanonFolder.set (CanonFolder.set (FD.empty (V := String))
        (.str "Clown") "Bozo") (.str "clown") "Krusty").preserves →
      PyKey.str "clown" = PyKey.str "clown") ∧
    FD.keys (CanonFolder.set (CanonFolder.set (FD.empty (V := String))
        (.str "Clown") "Bozo") (.str "clown") "Krusty") = [PyKey.str "clown"] :=
  ⟨(C7_canonical_retention
      (CanonFolder.set (CanonFolder.set (FD.empty (V := String))
        (.str "Clown") "Bozo") (.str "clown") "Krusty")
      (Reach.set (Reach.set Reach.empty))).1 (PyKey.str "clown") (PyKey.str "clown"),
   (C7_canonical_retention
      (CanonFolder.set (CanonFolder.set (FD.empty (V := String))
        (.str "Clown") "Bozo") (.str "clown") "Krusty")
      (Reach.set (Reach.set Reach.empty))).2.2⟩

/-- Claim C8: iteration order — `keys()` yields exactly the preserved keys
(in `__dict` insertion order); a `set` into an already-populated class keeps
the key sequence unchanged; a `set` into a fresh class appends its key at the
end; deleting a class erases its preserved key from the sequence, and a
`DKFoldedDict` `set` into a populated class re-orders only by deleting and
then reinserting the class (its new key moves to the end). -/
theorem C8_iteration_order {V : Type} (st : FD V)
    (hinv : FDInv FoldedDict.canonicalkey st) (k : PyKey) (v : V) :
    FD.keys st = st.preserves.map Prod.snd ∧
    (∀ p, lookupA st.preserves (FoldedDict.canonicalkey k) = some p →
      FD.keys (FoldedDict.set st k v) = FD.keys st) ∧
    (lookupA st.preserves (FoldedDict.canonicalkey k) = Option.none →
      FD.keys (FoldedDict.set st k v) = FD.keys st ++ [k]) ∧
    (∀ p, lookupA st.preserves (FoldedDict.canonicalkey k) = some p →
      FD.keys (FoldedDict.del st k).1 = (FD.keys st).erase p ∧
      FD.keys (DKFoldedDict.set st k v) = ((FD.keys st).erase p) ++ [k]) := by
  refine ⟨hinv.1.symm, ?_, ?_, ?_⟩
  · intro p hp
    have hpmem : p ∈ st.dict.map Prod.fst := by
      rw [← hinv.1]
      exact List.mem_map_of_mem Prod.snd (lookupA_some_mem hp)
    show ((setWith (savekeyWith FoldedDict.canonicalkey) st k v).dict.map Prod.fst) = _
    simp only [setWith, savekeyWith, hp]
    exact map_fst_setA_of_mem hpmem
  · intro hp
    have hk : k ∉ st.dict.map Prod.fst := key_not_mem_dict_of_inv hinv hp
    show ((setWith (savekeyWith FoldedDict.canonicalkey) st k v).dict.map Prod.fst) = _
    simp only [setWith, savekeyWith, hp]
    rw [setA_of_not_mem hk]
    simp [FD.keys]
  · intro p hp
    constructor
    · show ((delWith FoldedDict.canonicalkey st k).1.dict.map Prod.fst) = _
      simp only [delWith, hp]
      exact map_fst_delA
    · rw [(dk_set_state hinv).2 p hp]
      have hk : k ∉ (st.dict.map Prod.fst).erase p := by
        intro hmem
        have hk2 : k ∈ st.dict.map Prod.fst := List.mem_of_mem_erase hmem
        have hlk := lookup_self_of_mem_dict hinv hk2
        rw [hp] at hlk
        injection hlk with hlk
        subst hlk
        exact (nodup_dict_of_inv hinv).not_mem_erase hmem
      show ((setA (delA st.dict p) k v).map Prod.fst) = _
      rw [setA_of_not_mem (by rw [map_fst_delA]; exact hk)]
      simp [FD.keys, map_fst_delA]

/-- Witness for C8 on the one-class map `{Clown: Bozo}`: updating the class
via `'clown'` keeps the key order, a fresh class appends, and deleting then
`DK`-reinserting moves the class key. -/
theorem C8_iteration_order_witness :
    FD.keys (FoldedDict.set (FD.empty (V := String)) (.str "Clown") "Bozo") =
      (FoldedDict.set (FD.empty (V := String)) (.str "Clown") "Bozo").preserves.map Prod.snd ∧
    FD.keys (FoldedDict.set (FoldedDict.set (FD.empty (V := String)) (.str "Clown") "Bozo")
        (.str "clown") "Krusty") =
      FD.keys (FoldedDict.set (FD.empty (V := String)) (.str "Clown") "Bozo") ∧
    FD.keys (FoldedDict.set (FoldedDict.set (FD.empty (V := String)) (.str "Clown") "Bozo")
        (.str "banana") "gram") =
      FD.keys (FoldedDict.set (FD.empty (V := String)) (.str "Clown") "Bozo") ++
        [PyKey.str "banana"] ∧
    FD.keys (FoldedDict.del (FoldedDict.set (FD.empty (V := String)) (.str "Clown") "Bozo")
        (.str "clown")).1 =
      (FD.keys (FoldedDict.set (FD.empty (V := String)) (.str "Clown") "Bozo")).erase
        (PyKey.str "Clown") ∧
    FD.keys (DKFoldedDict.set (FoldedDict.set (FD.empty (V := String)) (.str "Clown") "Bozo")
        (.str "clown") "Krusty") =
      ((FD.keys (FoldedDict.set (FD.empty (V := String)) (.str "Clown") "Bozo")).erase
        (PyKey.str "Clown")) ++ [PyKey.str "clown"] :=
  ⟨(C8_iteration_order (FoldedDict.set (FD.empty (V := String)) (.str "Clown") "Bozo")
      (fdinv_set_base (fdinv_empty FoldedDict.canonicalkey))
      (.str "clown") "Krusty").1,
   (C8_iteration_order (FoldedDict.set (FD.empty (V := String)) (.str "Clown") "Bozo")
      (fdinv_set_base (fdinv_empty FoldedDict.canonicalkey))
      (.str "clown") "Krusty").2.1 (.str "Clown") (by decide),
   (C8_iteration_order (FoldedDict.set (FD.empty (V := String)) (.str "Clown") "Bozo")
      (fdinv_set_base (fdinv_empty FoldedDict.canonicalkey))
      (.str "banana") "gram").2.2.1 (by decide),
   ((C8_iteration_order (FoldedDict.set (FD.empty (V := String)) (.str "Clown") "Bozo")
      (fdinv_set_base (fdinv_empty FoldedDict.canonicalkey))
      (.str "clown") "Krusty").2.2.2 (.str "Clown") (by decide)).1,
   ((C8_iteration_order (FoldedDict.set (FD.empty (V := String)) (.str "Clown") "Bozo")
      (fdinv_set_base (fdinv_empty FoldedDict.canonicalkey))
      (.str "clown") "Krusty").2.2.2 (.str "Clown") (by decide)).2⟩

/-- Claim C9: table-consistency invariant I1 and `length()` — after every
operation (construction, set, delete) of any of the three folding-map
classes, `__preserves` and `__dict` have equal cardinality, the preserved
keys stored as values of `__preserves` are exactly the keys of `__dict`
(each canonical key having a `__dict` entry under its preserved key), and
`length()` returns this common count of populated equivalence classes. -/
theorem C9_table_consistency {V : Type} (canon : PyKey → PyKey)
    (sk : FD V → PyKey → PyKey × FD V)
    (hsk : sk = savekeyWith canon ∨
           sk = (fun st k => savekeyWith canon st (canon k)) ∨
           sk = dkSavekeyWith canon)
    (st : FD V) (h : Reach canon sk st) :
    st.preserves.length = st.dict.length ∧
    (∀ p, p ∈ st.preserves.map Prod.snd ↔ p ∈ st.dict.map Prod.fst) ∧
    (∀ c p, (c, p) ∈ st.preserves → ∃ v, lookupA st.dict p = some v) ∧
    FD.len st = st.dict.length ∧
    FD.len st = st.preserves.length := by
  have hinv := fdinv_reach canon sk hsk h
  have hlen : st.preserves.length = st.dict.length := by
    have hc := congrArg List.length hinv.1
    simpa using hc
  refine ⟨hlen, ?_, ?_, rfl, hlen.symm⟩
  · intro p
    rw [hinv.1]
  · intro c p hmem
    apply exists_lookupA_of_mem_fst
    rw [← hinv.1]
    exact List.mem_map_of_mem Prod.snd hmem

/-- Witness for C9 on the reachable `FoldedDict` state
`set('Clown','Bozo'); del('clown'); set('banana','gram')`. -/
theorem C9_table_consistency_witness :
    ((FoldedDict.set (FoldedDict.del (FoldedDict.set (FD.empty (V := String))
        (.str "Clown") "Bozo") (.str "clown")).1 (.str "banana") "gram").preserves.length =
      (FoldedDict.set (FoldedDict.del (FoldedDict.set (FD.empty (V := String))
        (.str "Clown") "Bozo") (.str "clown")).1 (.str "banana") "gram").dict.length) ∧
    FD.len (FoldedDict.set (FoldedDict.del (FoldedDict.set (FD.empty (V := String))
        (.str "Clown") "Bozo") (.str "clown")).1 (.str "banana") "gram") =
      (FoldedDict.set (FoldedDict.del (FoldedDict.set (FD.empty (V := String))
        (.str "Clown") "Bozo") (.str "clown")).1 (.str "banana") "gram").preserves.length :=
  ⟨(C9_table_consistency FoldedDict.canonicalkey FoldedDict._savekey (Or.inl rfl)
      (FoldedDict.set (FoldedDict.del (FoldedDict.set (FD.empty (V := String))
        (.str "Clown") "Bozo") (.str "clown")).1 (.str "banana") "gram")
      (Reach.set (Reach.del (Reach.set Reach.empty)))).1,
   (C9_table_consistency FoldedDict.canonicalkey FoldedDict._savekey (Or.inl rfl)
      (FoldedDict.set (FoldedDict.del (FoldedDict.set (FD.empty (V := String))
        (.str "Clown") "Bozo") (.str "clown")).1 (.str "banana") "gram")
      (Reach.set (Reach.del (Reach.set Reach.empty)))).2.2.2.2⟩

/-- Claim C10 (implicit round-trip invariant): in every reachable state of
any of the three folding-map classes, whose `canonicalkey` is a
(deterministic, idempotent) function, every `__preserves` entry maps a
canonical value `c` to a preserved key `p` with `canonicalkey(p) == c`;
consequently whenever `get`'s first lookup succeeds with preserved key `p`,
the second lookup (in `__dict`) also succeeds and `get` returns its value. -/
theorem C10_round_trip {V : Type} (canon : PyKey → PyKey)
    (hid : ∀ k, canon (canon k) = canon k)
    (sk : FD V → PyKey → PyKey × FD V)
    (hsk : sk = savekeyWith canon ∨
           sk = (fun st k => savekeyWith canon st (canon k)) ∨
           sk = dkSavekeyWith canon)
    (st : FD V) (h : Reach canon sk st) :
    (∀ c p, (c, p) ∈ st.preserves → canon p = c) ∧
    (∀ key p, lookupA st.preserves (canon key) = some p →
      ∃ v, lookupA st.dict p = some v ∧ getWith canon st key = .ok v) := by
  have hinv := fdinv_reach canon sk hsk h
  refine ⟨hinv.2.2, ?_⟩
  intro key p hp
  obtain ⟨v, hv⟩ : ∃ v, lookupA st.dict p = some v := by
    apply exists_lookupA_of_mem_fst
    rw [← hinv.1]
    exact List.mem_map_of_mem Prod.snd (lookupA_some_mem hp)
  exact ⟨v, hv, by simp [getWith, hp, hv]⟩

/-- Witness for C10 on the reachable `DKFoldedDict` state
`set('cloWN','boZO'); set('CLOwn','BOzo')`. -/
theorem C10_round_trip_witness :
    lookupA (DKFoldedDict.set (DKFoldedDict.set (FD.empty (V := String))
        (.str "cloWN") "boZO") (.str "CLOwn") "BOzo").preserves
      (FoldedDict.canonicalkey (.str "Clown")) = some (.str "CLOwn") ∧
    (∃ v, lookupA (DKFoldedDict.set (DKFoldedDict.set (FD.empty (V := String))
          (.str "cloWN") "boZO") (.str "CLOwn") "BOzo").dict (.str "CLOwn") = some v ∧
      getWith FoldedDict.canonicalkey
        (DKFoldedDict.set (DKFoldedDict.set (FD.empty (V := String))
          (.str "cloWN") "boZO") (.str "CLOwn") "BOzo") (.str "Clown") = .ok v) :=
  ⟨by decide,
   (C10_round_trip FoldedDict.canonicalkey canonicalkey_idem DKFoldedDict._savekey
      (Or.inr (Or.inr rfl))
      (DKFoldedDict.set (DKFoldedDict.set (FD.empty (V := String))
        (.str "cloWN") "boZO") (.str "CLOwn") "BOzo")
      (Reach.set (Reach.set Reach.empty))).2
     (.str "Clown") (.str "CLOwn") (by decide)⟩
